import Mathlib

/-!
Verification of the crop-yield aggregation pipeline (src/main.py).

The Python program processes a list of CSV rows (dictionaries from field
name to string value) through three pure functions:

* group_yields_by_crop  (main.py lines 14-25): builds an insertion-ordered
  mapping crop -> list of parsed yield values;
* calculate_average_yield (main.py lines 27-35): calls the former, then maps
  each crop to sum(values)/len(values);
* most_frequent_crop_by_region (main.py lines 37-53): builds an
  insertion-ordered nested mapping region -> crop -> count, then for each
  region picks the crop of maximum count with Python max (which returns the
  first maximal item in iteration order).

Python dicts iterate in insertion order, so they are embedded as
association lists where updating an existing key keeps its position and a
new key is appended at the end.  Python floats are embedded as rationals
(the yield strings of the data are decimal numerals, which parse exactly).
Python exceptions are embedded as an error type returned through Except:
`invalidYieldValue` stands for the ValueError of float(...) and for the
KeyError on the yield field (the spec's single InvalidYieldValue error),
`missingField` for a KeyError on another field, `emptyYieldSeries` for the
ZeroDivisionError of sum([])/len([]), and `emptyMax` for the ValueError of
max on an empty sequence.
-/

namespace CropYield

/-- Errors of the pipeline, named after the spec's error taxonomy; see the
module comment for the Python exception each one embeds. -/
inductive AggError where
  | invalidYieldValue
  | missingField (field : String)
  | emptyYieldSeries
  | emptyMax
deriving DecidableEq, Repr

/-- One CSV row: an ordered mapping from field name to field value,
as produced by csv.DictReader (main.py lines 5-12). -/
abbrev Record := List (String × String)

/-- Python dict lookup d[k] on an association list: first binding wins. -/
def alookup {β : Type} (k : String) : List (String × β) → Option β
  | [] => none
  | (k2, v) :: rest => if k2 = k then some v else alookup k rest

/-- Numeric value of a decimal digit character. -/
def digVal (c : Char) : ℕ := c.toNat - 48

/-- Value of a string of decimal digits, most significant first. -/
def digitsToNat (cs : List Char) : ℕ := cs.foldl (fun a c => a * 10 + digVal c) 0

/-- Parse an unsigned decimal numeral, with an optional fractional part,
into an exact rational.  Embeds the behaviour of Python float(...) on the
decimal forms the dataset uses; the empty string and non-numeric strings
yield none (a ValueError in Python).  Exponent forms, inf/nan and
underscore separators, which Python float also accepts, are not modelled
because no claim exercises them. -/
def parseUnsignedDecimal (cs : List Char) : Option ℚ :=
  let ip := cs.takeWhile Char.isDigit
  let rest := cs.dropWhile Char.isDigit
  match rest with
  | [] => if ip.isEmpty then none else some (digitsToNat ip : ℚ)
  | c :: rest2 =>
    if c = '.' then
      if rest2.all Char.isDigit then
        if ip.isEmpty && rest2.isEmpty then none
        else some ((digitsToNat ip : ℚ) + (digitsToNat rest2 : ℚ) / (10 : ℚ) ^ rest2.length)
      else none
    else none

/-- Parse a possibly signed decimal numeral, as Python float(...) does on
the forms described at parseUnsignedDecimal. -/
def parseDecimal (s : String) : Option ℚ :=
  match s.toList with
  | [] => none
  | '+' :: rest => parseUnsignedDecimal rest
  | '-' :: rest => (parseUnsignedDecimal rest).map (fun q => -q)
  | cs => parseUnsignedDecimal cs

/-- The yield value of a row: row['Yield_tons_per_hectare'] passed through
float(...) (main.py line 20); none when the field is missing, empty or
non-numeric. -/
def getYield (row : Record) : Option ℚ :=
  (alookup "Yield_tons_per_hectare" row).bind parseDecimal

/-- The dict update of main.py lines 22-24: crop_yields[crop] gets [v]
appended, the key being created (at the end, as Python dicts do) when
absent. -/
def appendYield (m : List (String × List ℚ)) (crop : String) (v : ℚ) :
    List (String × List ℚ) :=
  match m with
  | [] => [(crop, [v])]
  | (k, vs) :: rest =>
    if k = crop then (k, vs ++ [v]) :: rest else (k, vs) :: appendYield rest crop v

/-- The loop of main.py lines 19-24 with accumulator m: each row's yield is
parsed (ValueError or KeyError aborts the call as invalidYieldValue), then
appended under the row's crop. -/
def groupGo (m : List (String × List ℚ)) :
    List Record → Except AggError (List (String × List ℚ))
  | [] => .ok m
  | row :: rest =>
    match alookup "Yield_tons_per_hectare" row with
    | none => .error .invalidYieldValue
    | some s =>
      match parseDecimal s with
      | none => .error .invalidYieldValue
      | some v =>
        match alookup "Crop" row with
        | none => .error (.missingField "Crop")
        | some crop => groupGo (appendYield m crop v) rest

/-- group_yields_by_crop (main.py lines 14-25). -/
def group_yields_by_crop (data : List Record) :
    Except AggError (List (String × List ℚ)) :=
  groupGo [] data

/-- The reduction loop of main.py lines 32-35: each crop key is mapped to
sum(yields)/len(yields); an empty value list raises ZeroDivisionError,
embedded as emptyYieldSeries, and no partial result is returned. -/
def averagesGo : List (String × List ℚ) → Except AggError (List (String × ℚ))
  | [] => .ok []
  | (crop, vs) :: rest =>
    if vs.length = 0 then .error .emptyYieldSeries
    else
      match averagesGo rest with
      | .error e => .error e
      | .ok tail => .ok ((crop, vs.sum / (vs.length : ℚ)) :: tail)

/-- calculate_average_yield (main.py lines 27-35): group, then reduce. -/
def calculate_average_yield (data : List Record) :
    Except AggError (List (String × ℚ)) :=
  match group_yields_by_crop data with
  | .error e => .error e
  | .ok idx => averagesGo idx

/-- The dict update of main.py lines 47-49: the count under crop is
incremented, the key being created with count 1 (at the end) when absent. -/
def incrCrop (m : List (String × ℕ)) (crop : String) : List (String × ℕ) :=
  match m with
  | [] => [(crop, 1)]
  | (k, n) :: rest =>
    if k = crop then (k, n + 1) :: rest else (k, n) :: incrCrop rest crop

/-- The dict update of main.py lines 45-49: the nested count under
(region, crop) is incremented, nested entries created as needed. -/
def incrRegionCrop (m : List (String × List (String × ℕ))) (region crop : String) :
    List (String × List (String × ℕ)) :=
  match m with
  | [] => [(region, incrCrop [] crop)]
  | (k, cm) :: rest =>
    if k = region then (k, incrCrop cm crop) :: rest
    else (k, cm) :: incrRegionCrop rest region crop

/-- The accumulation loop of main.py lines 41-49 with accumulator m: a
KeyError on Region or Crop aborts the call. -/
def freqGo (m : List (String × List (String × ℕ))) :
    List Record → Except AggError (List (String × List (String × ℕ)))
  | [] => .ok m
  | row :: rest =>
    match alookup "Region" row with
    | none => .error (.missingField "Region")
    | some region =>
      match alookup "Crop" row with
      | none => .error (.missingField "Crop")
      | some crop => freqGo (incrRegionCrop m region crop) rest

/-- The region -> crop -> count accumulation of main.py lines 41-49. -/
def buildRegionFrequency (data : List Record) :
    Except AggError (List (String × List (String × ℕ))) :=
  freqGo [] data

/-- Python max(items, key=count) over a nonempty sequence x :: l: the FIRST
item of maximal count is kept, because a later item replaces the current
best only when strictly greater (main.py line 52). -/
def maxBySnd (x : String × ℕ) (l : List (String × ℕ)) : String × ℕ :=
  l.foldl (fun best y => if best.2 < y.2 then y else best) x

/-- The winner loop of main.py lines 50-52: each region is mapped to the
first crop of maximal count; max on an empty sequence raises ValueError,
embedded as emptyMax. -/
def dominantGo :
    List (String × List (String × ℕ)) → Except AggError (List (String × String))
  | [] => .ok []
  | (region, cm) :: rest =>
    match cm with
    | [] => .error .emptyMax
    | c :: cs =>
      match dominantGo rest with
      | .error e => .error e
      | .ok tail => .ok ((region, (maxBySnd c cs).1) :: tail)

/-- most_frequent_crop_by_region (main.py lines 37-53). -/
def most_frequent_crop_by_region (data : List Record) :
    Except AggError (List (String × String)) :=
  match buildRegionFrequency data with
  | .error e => .error e
  | .ok freq => dominantGo freq

/-! Derived notions used to state the claims. -/

/-- Whether an Except call succeeded. -/
def exceptOk {α : Type} : Except AggError α → Bool
  | .ok _ => true
  | .error _ => false

/-- Total number of yield values across all crop keys of an index. -/
def totalYieldCount (idx : List (String × List ℚ)) : ℕ :=
  (idx.map (fun p => p.2.length)).sum

/-- Sum of the crop counts of one region's frequency table. -/
def countsSum (cm : List (String × ℕ)) : ℕ := (cm.map Prod.snd).sum

/-- Number of records whose Region field is the given region. -/
def recordsInRegion (data : List Record) (region : String) : ℕ :=
  (data.filter (fun r => alookup "Region" r = some region)).length

/-- The Crop values of the records of one region, in dataset order
(records missing either field contribute nothing). -/
def cropSeq (data : List Record) (region : String) : List String :=
  data.filterMap (fun r =>
    match alookup "Region" r, alookup "Crop" r with
    | some rg, some c => if rg = region then some c else none
    | _, _ => none)

/-- Occurrence count of one value in a list of strings. -/
def countOcc (c : String) : List String → ℕ
  | [] => 0
  | x :: rest => (if x = c then 1 else 0) + countOcc c rest

/-- Number of records of the given region carrying the given crop. -/
def regionCropCount (data : List Record) (region crop : String) : ℕ :=
  countOcc crop (cropSeq data region)

/-- Index of the first occurrence of a value (length of the list when the
value is absent). -/
def firstIdx (c : String) : List String → ℕ
  | [] => 0
  | x :: rest => if x = c then 0 else firstIdx c rest + 1

/-- Keys of an association list, in order. -/
def keys {β : Type} (m : List (String × β)) : List String := m.map Prod.fst

/-- Left fold of incrCrop, the shape the crop-count tables of
most_frequent_crop_by_region take. -/
def tallyFrom (m : List (String × ℕ)) (l : List String) : List (String × ℕ) :=
  l.foldl incrCrop m

/-- The crop-count table accumulated from a crop sequence. -/
def tally (l : List String) : List (String × ℕ) := tallyFrom [] l

/-- How one region's entry of the frequency accumulator evolves when the
crops cs of further records of that region are processed. -/
def extendEntry (o : Option (List (String × ℕ))) (cs : List String) :
    Option (List (String × ℕ)) :=
  match o, cs with
  | none, [] => none
  | none, c :: cs2 => some (tallyFrom (incrCrop [] c) cs2)
  | some cm, cs => some (tallyFrom cm cs)

/-- Count stored for a crop in a count table, zero when the key is absent. -/
def lookupCount (m : List (String × ℕ)) (c : String) : ℕ := (alookup c m).getD 0

/-- Modelled from the words of the tie-break reading under examination: the
first crop, in dataset record order, whose running occurrence count within
the region reaches the region's maximum final occurrence count. -/
def firstToReachMax (data : List Record) (region : String) : Option String :=
  let l := cropSeq data region
  let m := (l.map (fun c => countOcc c l)).foldr max 0
  (List.range l.length).findSome? (fun i =>
    match l[i]? with
    | some c => if countOcc c (l.take (i + 1)) = m then some c else none
    | none => none)

/-- A row of the shape the test CSV of test_main.py uses, restricted to the
fields the core reads. -/
def sampleRow (region crop ys : String) : Record :=
  [("Region", region), ("Crop", crop), ("Yield_tons_per_hectare", ys)]

/-- A four-row dataset with integer-valued yields. -/
def sampleData : List Record :=
  [sampleRow "Region1" "Wheat" "5", sampleRow "Region1" "Rice" "4",
   sampleRow "Region2" "Wheat" "4", sampleRow "Region2" "Corn" "6"]

/-- A dataset whose second record has an empty yield field, after the
missing-values test of test_main.py. -/
def badYieldData : List Record :=
  [sampleRow "Region1" "Wheat" "5", sampleRow "Region1" "Rice" ""]

/-- A row carrying only Region and Crop. -/
def tieRow (crop : String) : Record := [("Region", "R1"), ("Crop", crop)]

/-- A one-region dataset whose two crops tie at two occurrences each: crop
A is encountered first, crop B is the first to reach the final maximum
count. -/
def tieData : List Record := [tieRow "A", tieRow "B", tieRow "B", tieRow "A"]

/-! Lemmas about the yield-index construction and the average reduction. -/

theorem totalYieldCount_nil : totalYieldCount [] = 0 := rfl

theorem totalYieldCount_cons (k : String) (vs : List ℚ) (rest : List (String × List ℚ)) :
    totalYieldCount ((k, vs) :: rest) = vs.length + totalYieldCount rest := by
  simp [totalYieldCount]

theorem totalYieldCount_appendYield (m : List (String × List ℚ)) (c : String) (v : ℚ) :
    totalYieldCount (appendYield m c v) = totalYieldCount m + 1 := by
  induction m with
  | nil => simp [appendYield, totalYieldCount]
  | cons p rest ih =>
    obtain ⟨k, vs⟩ := p
    by_cases hk : k = c
    · simp [appendYield, hk, totalYieldCount_cons]
      omega
    · simp [appendYield, hk, totalYieldCount_cons, ih]
      omega

theorem groupGo_ok_count (l : List Record) :
    ∀ m idx, groupGo m l = .ok idx →
      totalYieldCount idx = totalYieldCount m + l.length := by
  induction l with
  | nil =>
    intro m idx h
    simp [groupGo] at h
    simp [← h]
  | cons row rest ih =>
    intro m idx h
    cases h1 : alookup "Yield_tons_per_hectare" row with
    | none => simp [groupGo, h1] at h
    | some s =>
      cases h2 : parseDecimal s with
      | none => simp [groupGo, h1, h2] at h
      | some v =>
        cases h3 : alookup "Crop" row with
        | none => simp [groupGo, h1, h2, h3] at h
        | some crop =>
          simp only [groupGo, h1, h2, h3] at h
          rw [ih (appendYield m crop v) idx h, totalYieldCount_appendYield]
          simp
          omega

theorem appendYield_entries_ne_nil (m : List (String × List ℚ)) (c : String) (v : ℚ)
    (hm : ∀ p ∈ m, p.2 ≠ ([] : List ℚ)) :
    ∀ p ∈ appendYield m c v, p.2 ≠ [] := by
  induction m with
  | nil =>
    intro p hp
    simp [appendYield] at hp
    simp [hp]
  | cons q rest ih =>
    obtain ⟨k, vs⟩ := q
    intro p hp
    by_cases hk : k = c
    · simp [appendYield, hk] at hp
      rcases hp with h | h
      · simp [h]
      · exact hm p (by simp [h])
    · simp [appendYield, hk] at hp
      rcases hp with h | h
      · have := hm (k, vs) (by simp)
        simp [h]
        simpa using this
      · exact ih (fun q hq => hm q (by simp [hq])) p h

theorem groupGo_ok_entries (l : List Record) :
    ∀ m idx, (∀ p ∈ m, p.2 ≠ ([] : List ℚ)) → groupGo m l = .ok idx →
      ∀ p ∈ idx, p.2 ≠ [] := by
  induction l with
  | nil =>
    intro m idx hm h
    simp [groupGo] at h
    subst h
    exact hm
  | cons row rest ih =>
    intro m idx hm h
    cases h1 : alookup "Yield_tons_per_hectare" row with
    | none => simp [groupGo, h1] at h
    | some s =>
      cases h2 : parseDecimal s with
      | none => simp [groupGo, h1, h2] at h
      | some v =>
        cases h3 : alookup "Crop" row with
        | none => simp [groupGo, h1, h2, h3] at h
        | some crop =>
          simp only [groupGo, h1, h2, h3] at h
          exact ih (appendYield m crop v) idx
            (appendYield_entries_ne_nil m crop v hm) h

theorem groupGo_error_of_bad (l : List Record) :
    ∀ m, (∀ r ∈ l, (alookup "Crop" r).isSome) →
      (∃ r ∈ l, getYield r = none) →
      groupGo m l = .error .invalidYieldValue := by
  induction l with
  | nil =>
    intro m _ hbad
    simp at hbad
  | cons row rest ih =>
    intro m hcrop hbad
    cases h1 : alookup "Yield_tons_per_hectare" row with
    | none => simp [groupGo, h1]
    | some s =>
      cases h2 : parseDecimal s with
      | none => simp [groupGo, h1, h2]
      | some v =>
        have hc : (alookup "Crop" row).isSome = true := hcrop row (by simp)
        cases h3 : alookup "Crop" row with
        | none => rw [h3] at hc; simp at hc
        | some crop =>
          simp only [groupGo, h1, h2, h3]
          apply ih
          · intro r hr
            exact hcrop r (by simp [hr])
          · rcases hbad with ⟨r, hr, hbadr⟩
            rcases List.mem_cons.1 hr with rfl | hr2
            · exfalso
              unfold getYield at hbadr
              rw [h1] at hbadr
              simp [h2] at hbadr
            · exact ⟨r, hr2, hbadr⟩

theorem averagesGo_ok_of_ne_nil (idx : List (String × List ℚ))
    (h : ∀ p ∈ idx, p.2 ≠ ([] : List ℚ)) :
    averagesGo idx = .ok (idx.map (fun p => (p.1, p.2.sum / (p.2.length : ℚ)))) := by
  induction idx with
  | nil => rfl
  | cons p rest ih =>
    obtain ⟨c, vs⟩ := p
    have hvs : vs ≠ [] := h (c, vs) (by simp)
    have hlen : ¬ vs.length = 0 := by simpa using hvs
    have htail := ih (fun q hq => h q (by simp [hq]))
    simp [averagesGo, hlen, htail]

theorem averagesGo_error_of_empty (idx : List (String × List ℚ))
    (h : ∃ p ∈ idx, p.2 = ([] : List ℚ)) :
    averagesGo idx = .error .emptyYieldSeries := by
  induction idx with
  | nil => simp at h
  | cons p rest ih =>
    obtain ⟨c, vs⟩ := p
    by_cases hvs : vs.length = 0
    · simp [averagesGo, hvs]
    · have hrest : ∃ q ∈ rest, q.2 = ([] : List ℚ) := by
        rcases h with ⟨q, hq, hq2⟩
        rcases List.mem_cons.1 hq with heq | hq3
        · exfalso
          rw [heq] at hq2
          simp at hq2
          exact hvs (by simp [hq2])
        · exact ⟨q, hq3, hq2⟩
      simp [averagesGo, hvs, ih hrest]

/-! Lemmas about the crop-count tables built with incrCrop. -/

theorem alookup_incrCrop_self (m : List (String × ℕ)) (c : String) :
    alookup c (incrCrop m c) = some ((alookup c m).getD 0 + 1) := by
  induction m with
  | nil => simp [incrCrop, alookup]
  | cons p rest ih =>
    obtain ⟨k, n⟩ := p
    by_cases hk : k = c
    · simp [incrCrop, hk, alookup]
    · simp [incrCrop, hk, alookup, ih]

theorem alookup_incrCrop_ne (m : List (String × ℕ)) (c c2 : String) (hne : c2 ≠ c) :
    alookup c2 (incrCrop m c) = alookup c2 m := by
  have hcc2 : ¬ c = c2 := fun h => hne h.symm
  induction m with
  | nil => simp [incrCrop, alookup, hcc2]
  | cons p rest ih =>
    obtain ⟨k, n⟩ := p
    by_cases hk : k = c
    · subst hk
      simp [incrCrop, alookup, hcc2]
    · simp [incrCrop, hk, alookup, ih]

theorem keys_incrCrop (m : List (String × ℕ)) (c : String) :
    keys (incrCrop m c) = if c ∈ keys m then keys m else keys m ++ [c] := by
  induction m with
  | nil => simp [incrCrop, keys]
  | cons p rest ih =>
    obtain ⟨k, n⟩ := p
    by_cases hk : k = c
    · subst hk
      simp [incrCrop, keys]
    · have hck : ¬ c = k := fun h => hk h.symm
      rw [show incrCrop ((k, n) :: rest) c = (k, n) :: incrCrop rest c by simp [incrCrop, hk]]
      rw [show keys ((k, n) :: incrCrop rest c) = k :: keys (incrCrop rest c) from rfl]
      rw [show keys ((k, n) :: rest) = k :: keys rest from rfl]
      rw [ih]
      by_cases hmem : c ∈ keys rest
      · simp [hmem, hck]
      · simp [hmem, hck]

theorem incrCrop_ne_nil (m : List (String × ℕ)) (c : String) : incrCrop m c ≠ [] := by
  cases m with
  | nil => simp [incrCrop]
  | cons p rest =>
    obtain ⟨k, n⟩ := p
    by_cases hk : k = c
    · simp [incrCrop, hk]
    · simp [incrCrop, hk]

theorem countsSum_cons (k : String) (n : ℕ) (rest : List (String × ℕ)) :
    countsSum ((k, n) :: rest) = n + countsSum rest := by
  simp [countsSum]

theorem countsSum_incrCrop (m : List (String × ℕ)) (c : String) :
    countsSum (incrCrop m c) = countsSum m + 1 := by
  induction m with
  | nil => simp [incrCrop, countsSum]
  | cons p rest ih =>
    obtain ⟨k, n⟩ := p
    by_cases hk : k = c
    · simp [incrCrop, hk, countsSum_cons]
      omega
    · simp [incrCrop, hk, countsSum_cons, ih]
      omega

theorem incrCrop_pos (m : List (String × ℕ)) (c : String)
    (hm : ∀ p ∈ m, 0 < p.2) : ∀ p ∈ incrCrop m c, 0 < p.2 := by
  induction m with
  | nil =>
    intro p hp
    simp [incrCrop] at hp
    simp [hp]
  | cons q rest ih =>
    obtain ⟨k, n⟩ := q
    intro p hp
    by_cases hk : k = c
    · simp [incrCrop, hk] at hp
      rcases hp with h | h
      · simp [h]
      · exact hm p (by simp [h])
    · simp [incrCrop, hk] at hp
      rcases hp with h | h
      · rw [h]
        exact hm (k, n) (by simp)
      · exact ih (fun q hq => hm q (by simp [hq])) p h

theorem tallyFrom_nil (m : List (String × ℕ)) : tallyFrom m [] = m := rfl

theorem tallyFrom_cons (m : List (String × ℕ)) (c : String) (l : List String) :
    tallyFrom m (c :: l) = tallyFrom (incrCrop m c) l := rfl

theorem countsSum_tallyFrom (l : List String) :
    ∀ m, countsSum (tallyFrom m l) = countsSum m + l.length := by
  induction l with
  | nil => intro m; simp [tallyFrom_nil]
  | cons c rest ih =>
    intro m
    rw [tallyFrom_cons, ih, countsSum_incrCrop]
    simp only [List.length_cons]
    omega

theorem lookupCount_tallyFrom (l : List String) :
    ∀ m c, lookupCount (tallyFrom m l) c = lookupCount m c + countOcc c l := by
  induction l with
  | nil => intro m c; simp [tallyFrom_nil, countOcc]
  | cons x rest ih =>
    intro m c
    rw [tallyFrom_cons, ih]
    by_cases hx : x = c
    · subst hx
      simp [countOcc, lookupCount, alookup_incrCrop_self]
      try omega
    · simp [countOcc, hx, lookupCount, alookup_incrCrop_ne _ _ _ (Ne.symm hx)]
      try omega

theorem alookup_tallyFrom_eq_none (l : List String) :
    ∀ m c, alookup c (tallyFrom m l) = none ↔ alookup c m = none ∧ countOcc c l = 0 := by
  induction l with
  | nil => intro m c; simp [tallyFrom_nil, countOcc]
  | cons x rest ih =>
    intro m c
    rw [tallyFrom_cons, ih]
    by_cases hx : x = c
    · subst hx
      simp [countOcc, alookup_incrCrop_self]
    · simp [countOcc, hx, alookup_incrCrop_ne _ _ _ (Ne.symm hx)]

theorem alookup_tally_of_pos (l : List String) (c : String) (hc : 0 < countOcc c l) :
    alookup c (tally l) = some (countOcc c l) := by
  cases h : alookup c (tally l) with
  | none =>
    rw [show tally l = tallyFrom [] l from rfl, alookup_tallyFrom_eq_none] at h
    omega
  | some n =>
    have hlc := lookupCount_tallyFrom l [] c
    rw [show tallyFrom [] l = tally l from rfl] at hlc
    simp [lookupCount, h, alookup] at hlc
    rw [hlc]

theorem mem_of_alookup_eq_some {β : Type} (m : List (String × β)) (c : String) (v : β)
    (h : alookup c m = some v) : (c, v) ∈ m := by
  induction m with
  | nil => simp [alookup] at h
  | cons q rest ih =>
    obtain ⟨k, w⟩ := q
    by_cases hk : k = c
    · subst hk
      simp [alookup] at h
      simp [h]
    · simp [alookup, hk] at h
      exact List.mem_cons_of_mem _ (ih h)

theorem alookup_eq_of_mem_of_nodup {β : Type} (m : List (String × β)) (p : String × β)
    (hnd : (keys m).Nodup) (hp : p ∈ m) : alookup p.1 m = some p.2 := by
  induction m with
  | nil => simp at hp
  | cons q rest ih =>
    obtain ⟨k, v⟩ := q
    rw [show keys ((k, v) :: rest) = k :: keys rest from rfl, List.nodup_cons] at hnd
    rcases List.mem_cons.1 hp with heq | hmem
    · rw [heq]
      simp [alookup]
    · have hne : ¬ k = p.1 := by
        intro h
        exact hnd.1 (h ▸ (List.mem_map_of_mem Prod.fst hmem))
      simp [alookup, hne]
      exact ih hnd.2 hmem

theorem alookup_isSome_iff {β : Type} (m : List (String × β)) (c : String) :
    (alookup c m).isSome = true ↔ c ∈ keys m := by
  induction m with
  | nil => simp [alookup, keys]
  | cons q rest ih =>
    obtain ⟨k, v⟩ := q
    rw [show keys ((k, v) :: rest) = k :: keys rest from rfl]
    by_cases hk : k = c
    · subst hk
      simp [alookup]
    · have hck : ¬ c = k := fun h => hk h.symm
      simp [alookup, hk, hck, ih]

theorem keys_tallyFrom_nodup (l : List String) :
    ∀ m : List (String × ℕ), (keys m).Nodup → (keys (tallyFrom m l)).Nodup := by
  induction l with
  | nil => intro m h; exact h
  | cons c rest ih =>
    intro m h
    rw [tallyFrom_cons]
    apply ih
    rw [keys_incrCrop]
    by_cases hc : c ∈ keys m
    · simp [hc, h]
    · simp only [hc, if_false]
      rw [List.nodup_append]
      refine ⟨h, List.nodup_singleton c, ?_⟩
      intro a ha hb
      simp at hb
      subst hb
      exact hc ha

theorem tallyFrom_pos (l : List String) :
    ∀ m, (∀ p ∈ m, 0 < p.2) → ∀ p ∈ tallyFrom m l, 0 < p.2 := by
  induction l with
  | nil => intro m hm; exact hm
  | cons c rest ih =>
    intro m hm
    rw [tallyFrom_cons]
    exact ih (incrCrop m c) (incrCrop_pos m c hm)

/-! Lemmas about the region-frequency accumulation and the winner loop. -/

theorem extendEntry_some (cm : List (String × ℕ)) (cs : List String) :
    extendEntry (some cm) cs = some (tallyFrom cm cs) := by
  cases cs <;> rfl

theorem extendEntry_none_cons (c : String) (cs : List String) :
    extendEntry none (c :: cs) = some (tally (c :: cs)) := rfl

theorem extendEntry_getD (o : Option (List (String × ℕ))) (c : String) (cs : List String) :
    extendEntry o (c :: cs) = some (tallyFrom (incrCrop (o.getD []) c) cs) := by
  cases o <;> rfl

theorem alookup_incrRegionCrop_self (m : List (String × List (String × ℕ)))
    (rg c : String) :
    alookup rg (incrRegionCrop m rg c) = some (incrCrop ((alookup rg m).getD []) c) := by
  induction m with
  | nil => simp [incrRegionCrop, alookup]
  | cons p rest ih =>
    obtain ⟨k, cm⟩ := p
    by_cases hk : k = rg
    · simp [incrRegionCrop, hk, alookup]
    · simp [incrRegionCrop, hk, alookup, ih]

theorem alookup_incrRegionCrop_ne (m : List (String × List (String × ℕ)))
    (rg c r2 : String) (hne : r2 ≠ rg) :
    alookup r2 (incrRegionCrop m rg c) = alookup r2 m := by
  have hr2 : ¬ rg = r2 := fun h => hne h.symm
  induction m with
  | nil => simp [incrRegionCrop, alookup, hr2]
  | cons p rest ih =>
    obtain ⟨k, cm⟩ := p
    by_cases hk : k = rg
    · subst hk
      simp [incrRegionCrop, alookup, hr2]
    · simp [incrRegionCrop, hk, alookup, ih]

theorem cropSeq_nil (region : String) : cropSeq [] region = [] := rfl

theorem cropSeq_cons_fields (row : Record) (rest : List Record) (region rg c : String)
    (h1 : alookup "Region" row = some rg) (h2 : alookup "Crop" row = some c) :
    cropSeq (row :: rest) region =
      if rg = region then c :: cropSeq rest region else cropSeq rest region := by
  by_cases hr : rg = region
  · simp [cropSeq, List.filterMap_cons, h1, h2, hr]
  · simp [cropSeq, List.filterMap_cons, h1, h2, hr]

theorem freqGo_ok_alookup (l : List Record) :
    ∀ m freq, freqGo m l = .ok freq →
      ∀ region, alookup region freq = extendEntry (alookup region m) (cropSeq l region) := by
  induction l with
  | nil =>
    intro m freq h region
    injection h with h
    subst h
    rw [cropSeq_nil]
    cases ho : alookup region m with
    | none => simp [ho, extendEntry]
    | some cm => simp [ho, extendEntry_some, tallyFrom_nil]
  | cons row rest ih =>
    intro m freq h region
    cases h1 : alookup "Region" row with
    | none => simp [freqGo, h1] at h
    | some rg =>
      cases h2 : alookup "Crop" row with
      | none => simp [freqGo, h1, h2] at h
      | some c =>
        simp only [freqGo, h1, h2] at h
        have hrec := ih (incrRegionCrop m rg c) freq h region
        rw [cropSeq_cons_fields row rest region rg c h1 h2]
        by_cases hr : rg = region
        · subst hr
          rw [hrec, alookup_incrRegionCrop_self, extendEntry_some, if_pos rfl,
            extendEntry_getD]
        · rw [hrec, alookup_incrRegionCrop_ne _ _ _ _ (fun h3 => hr h3.symm)]
          simp [hr]

theorem incrRegionCrop_entries_ne_nil (m : List (String × List (String × ℕ)))
    (rg c : String) (hm : ∀ p ∈ m, p.2 ≠ ([] : List (String × ℕ))) :
    ∀ p ∈ incrRegionCrop m rg c, p.2 ≠ [] := by
  induction m with
  | nil =>
    intro p hp
    simp [incrRegionCrop] at hp
    rw [hp]
    exact incrCrop_ne_nil [] c
  | cons q rest ih =>
    obtain ⟨k, cm⟩ := q
    intro p hp
    by_cases hk : k = rg
    · simp [incrRegionCrop, hk] at hp
      rcases hp with h | h
      · rw [h]
        exact incrCrop_ne_nil cm c
      · exact hm p (by simp [h])
    · simp [incrRegionCrop, hk] at hp
      rcases hp with h | h
      · rw [h]
        exact hm (k, cm) (by simp)
      · exact ih (fun q hq => hm q (by simp [hq])) p h

theorem freqGo_ok_fields (l : List Record) :
    ∀ m freq, freqGo m l = .ok freq →
      ∀ r ∈ l, (alookup "Region" r).isSome = true ∧ (alookup "Crop" r).isSome = true := by
  induction l with
  | nil => intro m freq h r hr; simp at hr
  | cons row rest ih =>
    intro m freq h r hr
    cases h1 : alookup "Region" row with
    | none => simp [freqGo, h1] at h
    | some rg =>
      cases h2 : alookup "Crop" row with
      | none => simp [freqGo, h1, h2] at h
      | some c =>
        simp only [freqGo, h1, h2] at h
        rcases List.mem_cons.1 hr with heq | hmem
        · subst heq
          exact ⟨by simp [h1], by simp [h2]⟩
        · exact ih _ freq h r hmem

theorem freqGo_ok_of_fields (l : List Record) :
    ∀ m, (∀ r ∈ l, (alookup "Region" r).isSome = true ∧ (alookup "Crop" r).isSome = true) →
      ∃ freq, freqGo m l = .ok freq := by
  induction l with
  | nil => intro m _; exact ⟨m, rfl⟩
  | cons row rest ih =>
    intro m hf
    obtain ⟨hr, hc⟩ := hf row (by simp)
    cases h1 : alookup "Region" row with
    | none => rw [h1] at hr; simp at hr
    | some rg =>
      cases h2 : alookup "Crop" row with
      | none => rw [h2] at hc; simp at hc
      | some c =>
        obtain ⟨freq, hfreq⟩ := ih (incrRegionCrop m rg c) (fun r h3 => hf r (by simp [h3]))
        exact ⟨freq, by simp [freqGo, h1, h2, hfreq]⟩

theorem freqGo_ok_entries (l : List Record) :
    ∀ m freq, (∀ p ∈ m, p.2 ≠ ([] : List (String × ℕ))) → freqGo m l = .ok freq →
      ∀ p ∈ freq, p.2 ≠ [] := by
  induction l with
  | nil =>
    intro m freq hm h
    injection h with h
    subst h
    exact hm
  | cons row rest ih =>
    intro m freq hm h
    cases h1 : alookup "Region" row with
    | none => simp [freqGo, h1] at h
    | some rg =>
      cases h2 : alookup "Crop" row with
      | none => simp [freqGo, h1, h2] at h
      | some c =>
        simp only [freqGo, h1, h2] at h
        exact ih _ freq (incrRegionCrop_entries_ne_nil m rg c hm) h

theorem cropSeq_length (data : List Record) (region : String)
    (hf : ∀ r ∈ data, (alookup "Crop" r).isSome = true) :
    (cropSeq data region).length = recordsInRegion data region := by
  induction data with
  | nil => rfl
  | cons row rest ih =>
    have ihr := ih (fun r hr => hf r (by simp [hr]))
    cases h1 : alookup "Region" row with
    | none =>
      rw [show cropSeq (row :: rest) region = cropSeq rest region by
        simp [cropSeq, List.filterMap_cons, h1]]
      rw [show recordsInRegion (row :: rest) region = recordsInRegion rest region by
        simp [recordsInRegion, List.filter_cons, h1]]
      exact ihr
    | some rg =>
      have hc : (alookup "Crop" row).isSome = true := hf row (by simp)
      cases h2 : alookup "Crop" row with
      | none => rw [h2] at hc; simp at hc
      | some c =>
        rw [cropSeq_cons_fields row rest region rg c h1 h2]
        by_cases hr : rg = region
        · subst hr
          rw [if_pos rfl]
          rw [show recordsInRegion (row :: rest) rg = recordsInRegion rest rg + 1 by
            simp [recordsInRegion, List.filter_cons, h1]]
          simp [ihr]
        · rw [if_neg hr]
          rw [show recordsInRegion (row :: rest) region = recordsInRegion rest region by
            simp [recordsInRegion, List.filter_cons, h1, hr]]
          exact ihr

theorem dominantGo_ok_of_ne_nil (freq : List (String × List (String × ℕ)))
    (h : ∀ p ∈ freq, p.2 ≠ ([] : List (String × ℕ))) :
    ∃ res, dominantGo freq = .ok res := by
  induction freq with
  | nil => exact ⟨[], rfl⟩
  | cons p rest ih =>
    obtain ⟨rg, cm⟩ := p
    cases cm with
    | nil => exact absurd rfl (h (rg, []) (by simp))
    | cons c cs =>
      obtain ⟨tail, htail⟩ := ih (fun q hq => h q (by simp [hq]))
      exact ⟨(rg, (maxBySnd c cs).1) :: tail, by simp [dominantGo, htail]⟩

theorem dominantGo_alookup_some (freq : List (String × List (String × ℕ))) :
    ∀ res, dominantGo freq = .ok res →
      ∀ region w, alookup region res = some w →
        ∃ c cs, alookup region freq = some (c :: cs) ∧ w = (maxBySnd c cs).1 := by
  induction freq with
  | nil =>
    intro res h region w hw
    injection h with h
    subst h
    simp [alookup] at hw
  | cons p rest ih =>
    obtain ⟨rg, cm⟩ := p
    intro res h region w hw
    cases cm with
    | nil => simp [dominantGo] at h
    | cons c cs =>
      cases hrec : dominantGo rest with
      | error e => simp [dominantGo, hrec] at h
      | ok tail =>
        simp only [dominantGo, hrec] at h
        injection h with h
        subst h
        by_cases hr : rg = region
        · subst hr
          rw [show alookup rg ((rg, (maxBySnd c cs).1) :: tail) = some (maxBySnd c cs).1 by
            simp [alookup]] at hw
          injection hw with hw
          exact ⟨c, cs, by simp [alookup], hw.symm⟩
        · rw [show alookup region ((rg, (maxBySnd c cs).1) :: tail) = alookup region tail by
            simp [alookup, hr]] at hw
          obtain ⟨c2, cs2, hfind, hwin⟩ := ih tail hrec region w hw
          exact ⟨c2, cs2, by simp [alookup, hr, hfind], hwin⟩

/-! Lemmas about Python max over a count table: it returns a member of
maximal count, and the first such member in iteration order. -/

theorem maxBySnd_mem (x : String × ℕ) (l : List (String × ℕ)) :
    maxBySnd x l ∈ x :: l := by
  induction l generalizing x with
  | nil => simp [maxBySnd]
  | cons y ys ih =>
    rw [show maxBySnd x (y :: ys) = maxBySnd (if x.2 < y.2 then y else x) ys from rfl]
    rcases List.mem_cons.1 (ih (if x.2 < y.2 then y else x)) with h | h
    · rw [h]
      by_cases hxy : x.2 < y.2 <;> simp [hxy]
    · simp [h]

theorem le_maxBySnd (x : String × ℕ) (l : List (String × ℕ)) :
    ∀ y ∈ x :: l, y.2 ≤ (maxBySnd x l).2 := by
  induction l generalizing x with
  | nil =>
    intro y hy
    simp at hy
    simp [maxBySnd, hy]
  | cons z zs ih =>
    intro y hy
    rw [show maxBySnd x (z :: zs) = maxBySnd (if x.2 < z.2 then z else x) zs from rfl]
    have hb := ih (if x.2 < z.2 then z else x)
    have hbmax := hb (if x.2 < z.2 then z else x) (by simp)
    rcases List.mem_cons.1 hy with h | h
    · rw [h]
      refine le_trans ?_ hbmax
      by_cases hc : x.2 < z.2
      · simp [hc]
        omega
      · simp [hc]
    · rcases List.mem_cons.1 h with h2 | h2
      · rw [h2]
        refine le_trans ?_ hbmax
        by_cases hc : x.2 < z.2
        · simp [hc]
        · simp [hc]
          omega
      · exact hb y (by simp [h2])

theorem maxBySnd_first (x : String × ℕ) (l : List (String × ℕ)) :
    ∃ l1 l2, x :: l = l1 ++ maxBySnd x l :: l2 ∧
      ∀ y ∈ l1, y.2 < (maxBySnd x l).2 := by
  induction l generalizing x with
  | nil => exact ⟨[], [], rfl, by simp⟩
  | cons z zs ih =>
    rw [show maxBySnd x (z :: zs) = maxBySnd (if x.2 < z.2 then z else x) zs from rfl]
    by_cases hc : x.2 < z.2
    · rw [if_pos hc]
      obtain ⟨l1, l2, hsplit, hlt⟩ := ih z
      cases l1 with
      | nil =>
        refine ⟨[x], l2, ?_, ?_⟩
        · simpa using hsplit
        · intro y hy
          simp at hy
          rw [hy]
          have hz := le_maxBySnd z zs z (by simp)
          simp at hsplit
          omega
      | cons a l1t =>
        have hsplit2 := hsplit
        rw [List.cons_append] at hsplit2
        injection hsplit2 with hza htail
        refine ⟨x :: a :: l1t, l2, ?_, ?_⟩
        · rw [List.cons_append]
          exact congrArg (List.cons x) hsplit
        · intro y hy
          have ha : a.2 < (maxBySnd z zs).2 := hlt a (by simp)
          rw [← hza] at ha
          rcases List.mem_cons.1 hy with h | h
          · rw [h]
            omega
          · exact hlt y h
    · rw [if_neg hc]
      obtain ⟨l1, l2, hsplit, hlt⟩ := ih x
      cases l1 with
      | nil =>
        simp only [List.nil_append] at hsplit
        injection hsplit with hmx htail
        refine ⟨[], z :: zs, ?_, by simp⟩
        rw [List.nil_append, ← hmx]
      | cons a l1t =>
        rw [List.cons_append] at hsplit
        injection hsplit with hxa htail
        refine ⟨x :: z :: l1t, l2, ?_, ?_⟩
        · rw [List.cons_append, List.cons_append]
          exact congrArg (fun t => x :: z :: t) htail
        · intro y hy
          have ha : a.2 < (maxBySnd x zs).2 := hlt a (by simp)
          rw [← hxa] at ha
          rcases List.mem_cons.1 hy with h | h
          · rw [h]
            omega
          · rcases List.mem_cons.1 h with h2 | h2
            · rw [h2]
              omega
            · exact hlt y (by simp [h2])

/-! First-occurrence indices and the insertion order of count-table keys. -/

theorem firstIdx_lt_of_mem_left (p q : List String) (x : String) (hx : x ∈ p) :
    firstIdx x (p ++ q) < p.length := by
  induction p with
  | nil => simp at hx
  | cons a rest ih =>
    by_cases hax : a = x
    · simp [firstIdx, hax]
    · rcases List.mem_cons.1 hx with h | h
      · exact absurd h.symm hax
      · have := ih h
        simp [firstIdx, hax]
        omega

theorem firstIdx_append_not_mem (p : List String) (x : String) (q : List String)
    (hx : x ∉ p) : firstIdx x (p ++ q) = p.length + firstIdx x q := by
  induction p with
  | nil => simp [firstIdx]
  | cons a rest ih =>
    have hax : ¬ a = x := by
      intro h
      subst h
      exact hx (by simp)
    have hrest : x ∉ rest := fun hm => hx (List.mem_cons_of_mem a hm)
    simp [firstIdx, hax, ih hrest]
    omega

theorem firstIdx_cons_self (x : String) (q : List String) :
    firstIdx x (x :: q) = 0 := by
  simp [firstIdx]

theorem keys_tallyFrom_pairwise (l0 : List String) :
    ∀ (l p : List String) (m : List (String × ℕ)), l0 = p ++ l →
      (keys m).Pairwise (fun a b => firstIdx a l0 < firstIdx b l0) →
      (∀ x, x ∈ keys m ↔ x ∈ p) →
      (keys (tallyFrom m l)).Pairwise (fun a b => firstIdx a l0 < firstIdx b l0) := by
  intro l
  induction l with
  | nil =>
    intro p m h0 hpw hmem
    exact hpw
  | cons c rest ih =>
    intro p m h0 hpw hmem
    rw [tallyFrom_cons]
    apply ih (p ++ [c]) (incrCrop m c) (by rw [h0, List.append_assoc]; rfl)
    · rw [keys_incrCrop]
      by_cases hc : c ∈ keys m
      · rw [if_pos hc]
        exact hpw
      · rw [if_neg hc]
        rw [List.pairwise_append]
        refine ⟨hpw, by simp, ?_⟩
        intro a ha b hb
        simp at hb
        rw [hb]
        have hap : a ∈ p := (hmem a).1 ha
        have hcp : c ∉ p := fun h => hc ((hmem c).2 h)
        have h1 : firstIdx a l0 < p.length := by
          rw [h0]
          exact firstIdx_lt_of_mem_left p (c :: rest) a hap
        have h2 : firstIdx c l0 = p.length := by
          rw [h0, firstIdx_append_not_mem p c (c :: rest) hcp, firstIdx_cons_self]
          omega
        omega
    · intro x
      rw [keys_incrCrop]
      by_cases hc : c ∈ keys m
      · rw [if_pos hc]
        rw [hmem x, List.mem_append, List.mem_singleton]
        constructor
        · exact fun h => Or.inl h
        · rintro (h | h)
          · exact h
          · rw [h]
            exact (hmem c).1 hc
      · rw [if_neg hc]
        simp [List.mem_append, hmem x]

theorem keys_tally_pairwise (l : List String) :
    (keys (tally l)).Pairwise (fun a b => firstIdx a l < firstIdx b l) := by
  apply keys_tallyFrom_pairwise l l [] []
  · rfl
  · simp [keys]
  · intro x
    simp [keys]

/-- Full characterisation of the winner most_frequent_crop_by_region
reports for a region: it occurs in the region, its occurrence count is
maximal, and among the crops of maximal count its first occurrence comes
earliest. -/
theorem winner_spec (data : List Record) (res : List (String × String))
    (hok : most_frequent_crop_by_region data = .ok res) (region c : String)
    (hc : alookup region res = some c) :
    0 < countOcc c (cropSeq data region) ∧
    (∀ c2, countOcc c2 (cropSeq data region) ≤ countOcc c (cropSeq data region)) ∧
    (∀ c2, countOcc c2 (cropSeq data region) = countOcc c (cropSeq data region) →
      firstIdx c (cropSeq data region) ≤ firstIdx c2 (cropSeq data region)) := by
  cases hfreq : buildRegionFrequency data with
  | error e =>
    rw [most_frequent_crop_by_region, hfreq] at hok
    exact absurd hok (by simp)
  | ok freq =>
    rw [most_frequent_crop_by_region, hfreq] at hok
    obtain ⟨ch, cs, hfind, hwin⟩ := dominantGo_alookup_some freq res hok region c hc
    have hchar := freqGo_ok_alookup data [] freq hfreq region
    rw [show alookup region ([] : List (String × List (String × ℕ))) = none from rfl]
      at hchar
    generalize hseq : cropSeq data region = L
    rw [hseq] at hchar
    cases L with
    | nil =>
      rw [hfind] at hchar
      exact absurd hchar (by simp [extendEntry])
    | cons c0 cls =>
      rw [extendEntry_none_cons, hfind] at hchar
      injection hchar with hcm
      have hrmem : maxBySnd ch cs ∈ ch :: cs := maxBySnd_mem ch cs
      have hrtal : maxBySnd ch cs ∈ tally (c0 :: cls) := by rw [← hcm]; exact hrmem
      have hnodup : (keys (tally (c0 :: cls))).Nodup :=
        keys_tallyFrom_nodup (c0 :: cls) [] (by simp [keys])
      have hlook : alookup (maxBySnd ch cs).1 (ch :: cs) = some (maxBySnd ch cs).2 :=
        alookup_eq_of_mem_of_nodup _ _ (by rw [hcm]; exact hnodup) hrmem
      have hcount : (maxBySnd ch cs).2 = countOcc (maxBySnd ch cs).1 (c0 :: cls) := by
        have hlc := lookupCount_tallyFrom (c0 :: cls) [] (maxBySnd ch cs).1
        rw [show tallyFrom [] (c0 :: cls) = tally (c0 :: cls) from rfl, ← hcm] at hlc
        simp only [lookupCount] at hlc
        rw [hlook] at hlc
        simpa [alookup] using hlc
      have hpos : 0 < (maxBySnd ch cs).2 :=
        tallyFrom_pos (c0 :: cls) [] (by simp) (maxBySnd ch cs) hrtal
      have hmax : ∀ c2, countOcc c2 (c0 :: cls) ≤ countOcc (maxBySnd ch cs).1 (c0 :: cls) := by
        intro c2
        by_cases h0 : 0 < countOcc c2 (c0 :: cls)
        · have hl2 := alookup_tally_of_pos (c0 :: cls) c2 h0
          have hm2 : (c2, countOcc c2 (c0 :: cls)) ∈ ch :: cs := by
            rw [hcm]
            exact mem_of_alookup_eq_some _ _ _ hl2
          have h3 := le_maxBySnd ch cs (c2, countOcc c2 (c0 :: cls)) hm2
          simp at h3
          omega
        · omega
      have hfirst : ∀ c2, countOcc c2 (c0 :: cls) = countOcc (maxBySnd ch cs).1 (c0 :: cls) →
          firstIdx (maxBySnd ch cs).1 (c0 :: cls) ≤ firstIdx c2 (c0 :: cls) := by
        intro c2 heq
        by_cases hsame : c2 = (maxBySnd ch cs).1
        · rw [hsame]
        · have h0 : 0 < countOcc c2 (c0 :: cls) := by omega
          have hl2 := alookup_tally_of_pos (c0 :: cls) c2 h0
          have hm2 : (c2, countOcc c2 (c0 :: cls)) ∈ ch :: cs := by
            rw [hcm]
            exact mem_of_alookup_eq_some _ _ _ hl2
          obtain ⟨l1, l2, hsplit, hlt⟩ := maxBySnd_first ch cs
          rw [hsplit] at hm2
          rcases List.mem_append.1 hm2 with hin1 | hin2
          · have h4 := hlt _ hin1
            simp at h4
            omega
          · rcases List.mem_cons.1 hin2 with heq2 | hin3
            · exact absurd (congrArg Prod.fst heq2) hsame
            · have hpw : (keys (ch :: cs)).Pairwise
                  (fun a b => firstIdx a (c0 :: cls) < firstIdx b (c0 :: cls)) := by
                rw [hcm]
                exact keys_tally_pairwise (c0 :: cls)
              rw [hsplit] at hpw
              rw [show keys (l1 ++ maxBySnd ch cs :: l2) =
                    keys l1 ++ (maxBySnd ch cs).1 :: keys l2 by simp [keys]] at hpw
              have hpw2 := (List.pairwise_append.1 hpw).2.1
              have hrel := (List.pairwise_cons.1 hpw2).1 c2
                (List.mem_map_of_mem Prod.fst hin3)
              omega
      rw [hwin]
      exact ⟨by omega, hmax, hfirst⟩

theorem mem_of_countOcc_pos (l : List String) (c : String) (h : 0 < countOcc c l) :
    c ∈ l := by
  induction l with
  | nil => simp [countOcc] at h
  | cons x rest ih =>
    by_cases hx : x = c
    · simp [hx]
    · simp [countOcc, hx] at h
      exact List.mem_cons_of_mem x (ih h)

/-- The concrete figures the spec quotes for the average reduction: a crop
with values [5.5, 4.8] averages to 5.15 and a single-value series [6.0]
averages to exactly 6.0. -/
theorem average_concrete_values :
    averagesGo [("Wheat", [(5.5 : ℚ), 4.8]), ("Corn", [(6.0 : ℚ)])] =
      .ok [("Wheat", (5.15 : ℚ)), ("Corn", (6.0 : ℚ))] := by
  rw [averagesGo_ok_of_ne_nil _ (by simp)]
  norm_num

/-! The claims. -/

/-- Claim C1: whenever group_yields_by_crop builds an index from a dataset
(which it does exactly when every record parses, the very datasets the
claim quantifies over), the total number of yield values across all crop
keys of the index equals the length of the dataset. -/
theorem yield_index_total_count (data : List Record) (idx : List (String × List ℚ))
    (h : group_yields_by_crop data = .ok idx) :
    totalYieldCount idx = data.length := by
  have hcount := groupGo_ok_count data [] idx h
  simpa [totalYieldCount] using hcount

theorem yield_index_total_count_witness :
    totalYieldCount [("Wheat", [((5 : ℕ) : ℚ), ((4 : ℕ) : ℚ)]), ("Rice", [((4 : ℕ) : ℚ)]),
      ("Corn", [((6 : ℕ) : ℚ)])] = sampleData.length :=
  yield_index_total_count sampleData
    [("Wheat", [((5 : ℕ) : ℚ), ((4 : ℕ) : ℚ)]), ("Rice", [((4 : ℕ) : ℚ)]),
      ("Corn", [((6 : ℕ) : ℚ)])] rfl

/-- Claim C2: in the region to crop to count mapping accumulated by
most_frequent_crop_by_region, each region's crop counts sum to the number
of records of the dataset whose Region field is that region. -/
theorem region_counts_sum (data : List Record)
    (freq : List (String × List (String × ℕ)))
    (h : buildRegionFrequency data = .ok freq) (region : String)
    (cm : List (String × ℕ)) (hcm : alookup region freq = some cm) :
    countsSum cm = recordsInRegion data region := by
  have hchar := freqGo_ok_alookup data [] freq h region
  rw [show alookup region ([] : List (String × List (String × ℕ))) = none from rfl]
    at hchar
  rw [hcm] at hchar
  cases hseq : cropSeq data region with
  | nil =>
    rw [hseq] at hchar
    exact absurd hchar (by simp [extendEntry])
  | cons c0 cls =>
    rw [hseq, extendEntry_none_cons] at hchar
    injection hchar with hcm2
    have hlen : countsSum (tally (c0 :: cls)) = (c0 :: cls).length := by
      have hsum := countsSum_tallyFrom (c0 :: cls) []
      simpa [countsSum] using hsum
    have hfields := freqGo_ok_fields data [] freq h
    have hclen := cropSeq_length data region (fun r hr => (hfields r hr).2)
    rw [hseq] at hclen
    rw [hcm2, hlen]
    exact hclen

theorem region_counts_sum_witness :
    countsSum [("Wheat", 1), ("Rice", 1)] = recordsInRegion sampleData "Region1" :=
  region_counts_sum sampleData
    [("Region1", [("Wheat", 1), ("Rice", 1)]), ("Region2", [("Wheat", 1), ("Corn", 1)])]
    rfl "Region1" [("Wheat", 1), ("Rice", 1)] rfl

/-- Claim C3: a dataset of records carrying a Crop field in which some
record's yield field is missing, empty or non-numeric makes
group_yields_by_crop fail with the InvalidYieldValue error; the Except
result carries no partial index for the records preceding the bad one. -/
theorem invalid_yield_aborts (data : List Record)
    (hcrop : ∀ r ∈ data, (alookup "Crop" r).isSome = true)
    (hbad : ∃ r ∈ data, getYield r = none) :
    group_yields_by_crop data = .error .invalidYieldValue :=
  groupGo_error_of_bad data [] hcrop hbad

theorem invalid_yield_aborts_witness :
    group_yields_by_crop badYieldData = .error .invalidYieldValue :=
  invalid_yield_aborts badYieldData (by decide) (by decide)

/-- Claim C4: on an index whose every crop key holds a non-empty value
list, the average reduction succeeds and maps each crop key to the sum of
its values divided by their count (in particular [5.5, 4.8] averages to
5.15 and [6.0] to exactly 6.0; see average_concrete_values). -/
theorem average_is_sum_div_count (idx : List (String × List ℚ))
    (h : ∀ p ∈ idx, p.2 ≠ ([] : List ℚ)) :
    averagesGo idx = .ok (idx.map (fun p => (p.1, p.2.sum / (p.2.length : ℚ)))) :=
  averagesGo_ok_of_ne_nil idx h

theorem average_is_sum_div_count_witness :
    averagesGo [("Wheat", [(5.5 : ℚ), 4.8]), ("Corn", [(6.0 : ℚ)])] =
      .ok ([("Wheat", [(5.5 : ℚ), 4.8]), ("Corn", [(6.0 : ℚ)])].map
        (fun p => (p.1, p.2.sum / (p.2.length : ℚ)))) :=
  average_is_sum_div_count [("Wheat", [(5.5 : ℚ), 4.8]), ("Corn", [(6.0 : ℚ)])] (by simp)

/-- Claim C5: an index in which some crop key holds an empty value list
makes the average reduction fail deterministically with the
EmptyYieldSeries error (the ZeroDivisionError of the source), with no
partial report. -/
theorem empty_series_error (idx : List (String × List ℚ))
    (h : ∃ p ∈ idx, p.2 = ([] : List ℚ)) :
    averagesGo idx = .error .emptyYieldSeries :=
  averagesGo_error_of_empty idx h

theorem empty_series_error_witness :
    averagesGo [("Wheat", [(5.0 : ℚ)]), ("Rice", ([] : List ℚ))] =
      .error .emptyYieldSeries :=
  empty_series_error [("Wheat", [(5.0 : ℚ)]), ("Rice", ([] : List ℚ))]
    ⟨("Rice", ([] : List ℚ)), by simp, rfl⟩

/-- Claim C6: an index actually produced by group_yields_by_crop has a
non-empty value list under every crop key, so the division of the average
reduction never sees a zero divisor and the empty-series failure branch is
unreachable: the reduction succeeds. -/
theorem built_index_avg_safe (data : List Record) (idx : List (String × List ℚ))
    (h : group_yields_by_crop data = .ok idx) :
    (∀ p ∈ idx, p.2 ≠ ([] : List ℚ)) ∧ exceptOk (averagesGo idx) = true := by
  have hne := groupGo_ok_entries data [] idx (by simp) h
  refine ⟨hne, ?_⟩
  rw [averagesGo_ok_of_ne_nil idx hne]
  rfl

theorem built_index_avg_safe_witness :
    exceptOk (averagesGo [("Wheat", [((5 : ℕ) : ℚ), ((4 : ℕ) : ℚ)]),
      ("Rice", [((4 : ℕ) : ℚ)]), ("Corn", [((6 : ℕ) : ℚ)])]) = true :=
  (built_index_avg_safe sampleData
    [("Wheat", [((5 : ℕ) : ℚ), ((4 : ℕ) : ℚ)]), ("Rice", [((4 : ℕ) : ℚ)]),
      ("Corn", [((6 : ℕ) : ℚ)])] rfl).2

/-- Claim C7: the crop most_frequent_crop_by_region reports for a region
occurs in that region and its occurrence count is maximal among all crops
of that region; in a tie the reported crop is one of the tied candidates
(it occurs and attains the maximum). -/
theorem dominant_crop_maximal (data : List Record) (res : List (String × String))
    (hok : most_frequent_crop_by_region data = .ok res) (region c : String)
    (hc : alookup region res = some c) :
    c ∈ cropSeq data region ∧
    ∀ c2, regionCropCount data region c2 ≤ regionCropCount data region c := by
  obtain ⟨hpos, hmax, _⟩ := winner_spec data res hok region c hc
  exact ⟨mem_of_countOcc_pos _ _ hpos, fun c2 => hmax c2⟩

theorem dominant_crop_maximal_witness :
    "Wheat" ∈ cropSeq sampleData "Region1" ∧
    regionCropCount sampleData "Region1" "Rice" ≤
      regionCropCount sampleData "Region1" "Wheat" :=
  ⟨(dominant_crop_maximal sampleData [("Region1", "Wheat"), ("Region2", "Wheat")] rfl
      "Region1" "Wheat" rfl).1,
   (dominant_crop_maximal sampleData [("Region1", "Wheat"), ("Region2", "Wheat")] rfl
      "Region1" "Wheat" rfl).2 "Rice"⟩

/-- Claim C8: most_frequent_crop_by_region is deterministic.  The
embedding is a pure function of the dataset — the source's dict iteration
is insertion-ordered and Python max is deterministic, so two calls on the
same input return the same mapping, tied regions included. -/
theorem most_frequent_deterministic (data : List Record) :
    most_frequent_crop_by_region data = most_frequent_crop_by_region data := rfl

/-- Claim C9: most_frequent_crop_by_region never reads the yield field:
it succeeds on every dataset whose records all carry Region and Crop
fields, regardless of missing, empty or non-numeric yield values. -/
theorem frequency_ignores_yield (data : List Record)
    (hf : ∀ r ∈ data, (alookup "Region" r).isSome = true ∧
      (alookup "Crop" r).isSome = true) :
    exceptOk (most_frequent_crop_by_region data) = true := by
  obtain ⟨freq, hfreq⟩ := freqGo_ok_of_fields data [] hf
  have hne := freqGo_ok_entries data [] freq (by simp) hfreq
  obtain ⟨res, hres⟩ := dominantGo_ok_of_ne_nil freq hne
  have hb : buildRegionFrequency data = .ok freq := hfreq
  simp [most_frequent_crop_by_region, hb, hres, exceptOk]

theorem frequency_ignores_yield_witness :
    exceptOk (most_frequent_crop_by_region badYieldData) = true :=
  frequency_ignores_yield badYieldData (by decide)

/-- Claim C10 as stated is false: on tieData (region R1 with crops A, B,
B, A) the code returns crop A — the first-encountered crop among those of
maximal count — while the first crop, in dataset record order, to reach
the maximum occurrence count 2 is B, which reaches it at the third record
where A has count 1. -/
theorem tie_break_counterexample :
    most_frequent_crop_by_region tieData = .ok [("R1", "A")] ∧
    firstToReachMax tieData "R1" = some "B" :=
  ⟨rfl, rfl⟩

/-- Claim C10 (amended): the crop reported for a region occurs there, its
count is maximal, and among the crops attaining the maximal count the
reported one is the first encountered in dataset record order (earliest
first occurrence) — not the first whose running count reaches the
maximum. -/
theorem dominant_crop_first_encountered (data : List Record)
    (res : List (String × String))
    (hok : most_frequent_crop_by_region data = .ok res) (region c : String)
    (hc : alookup region res = some c) :
    c ∈ cropSeq data region ∧
    (∀ c2, regionCropCount data region c2 ≤ regionCropCount data region c) ∧
    (∀ c2, regionCropCount data region c2 = regionCropCount data region c →
      firstIdx c (cropSeq data region) ≤ firstIdx c2 (cropSeq data region)) := by
  obtain ⟨hpos, hmax, hfirst⟩ := winner_spec data res hok region c hc
  exact ⟨mem_of_countOcc_pos _ _ hpos, fun c2 => hmax c2, fun c2 h2 => hfirst c2 h2⟩

theorem dominant_crop_first_encountered_witness :
    "A" ∈ cropSeq tieData "R1" ∧
    firstIdx "A" (cropSeq tieData "R1") ≤ firstIdx "B" (cropSeq tieData "R1") :=
  ⟨(dominant_crop_first_encountered tieData [("R1", "A")] rfl "R1" "A" rfl).1,
   (dominant_crop_first_encountered tieData [("R1", "A")] rfl "R1" "A" rfl).2.2 "B"
     (by decide)⟩

end CropYield
